import Mathlib

set_option maxRecDepth 4000

/-!
A shallow embedding of `src/server.js` (LogoFive): a paid-access gateway in
which a Stripe webhook deposits single-use tokens into an in-memory set
(`paidTokens`) and `POST /api/generate` validates, sanitizes and consumes
them.  Handlers are modelled as pure functions from the store and the request
data to the new store and the HTTP outcome; the upstream image API and the
signature check are oracle inputs.
-/

namespace LogoFive

/-! ## Prompt sanitization (`safePrompt` / `finalPrompt`, server.js lines 140-150) -/

/-- The characters of the regex alternative `minecraft` (lowercase). -/
def mcChars : List Char := ['m', 'i', 'n', 'e', 'c', 'r', 'a', 'f', 't']

/-- The characters of the regex alternative `skywars` (lowercase). -/
def swChars : List Char := ['s', 'k', 'y', 'w', 'a', 'r', 's']

/-- The characters of the replacement string `pixel fantasy`. -/
def replChars : List Char := ['p', 'i', 'x', 'e', 'l', ' ', 'f', 'a', 'n', 't', 'a', 's', 'y']

/-- `startsWithCI pat l` : the lowercase pattern `pat` matches a prefix of `l`
case-insensitively (the `i` regex flag folds ASCII case). -/
def startsWithCI : List Char → List Char → Bool
  | [], _ => true
  | _ :: _, [] => false
  | p :: ps, c :: cs => p == c.toLower && startsWithCI ps cs

/-- Exact (case-sensitive) prefix match. -/
def startsWithEq : List Char → List Char → Bool
  | [], _ => true
  | _ :: _, [] => false
  | p :: ps, c :: cs => p == c && startsWithEq ps cs

/-- `occursCI pat l` : the lowercase pattern `pat` occurs somewhere in `l`,
case-insensitively. -/
def occursCI : List Char → List Char → Bool
  | pat, [] => startsWithCI pat []
  | pat, c :: cs => startsWithCI pat (c :: cs) || occursCI pat cs

/-- `occursEq pat l` : `pat` occurs somewhere in `l` (exact match). -/
def occursEq : List Char → List Char → Bool
  | pat, [] => startsWithEq pat []
  | pat, c :: cs => startsWithEq pat (c :: cs) || occursEq pat cs

/-- `pat` matches `l` case-insensitively up to the shorter of the two lengths. -/
def compatCI : List Char → List Char → Bool
  | [], _ => true
  | _, [] => true
  | p :: ps, c :: cs => p == c.toLower && compatCI ps cs

/-- One left-to-right pass of `prompt.replace(/minecraft|skywars/gi, "pixel fantasy")`:
at each position the scanner tries `minecraft` then `skywars`
case-insensitively, substitutes `pixel fantasy` on a match and resumes after
the matched characters, otherwise copies one character.  The `Nat` argument is
fuel; each step consumes at least one input character, so `l.length` fuel
always suffices (see `substBrands`). -/
def subGo : Nat → List Char → List Char
  | 0, l => l
  | _ + 1, [] => []
  | f + 1, c :: cs =>
    if startsWithCI mcChars (c :: cs) then replChars ++ subGo f (cs.drop 8)
    else if startsWithCI swChars (c :: cs) then replChars ++ subGo f (cs.drop 6)
    else c :: subGo f cs

/-- `l.replace(/minecraft|skywars/gi, "pixel fantasy")` on character lists. -/
def substBrands (l : List Char) : List Char := subGo l.length l

/-- The whitespace class trimmed by JavaScript `String.prototype.trim`. -/
def isJsWhite (c : Char) : Bool :=
  c == ' ' || c == '\t' || c == '\n' || c == '\r' ||
  c == Char.ofNat 11 || c == Char.ofNat 12 || c == Char.ofNat 160 ||
  c == Char.ofNat 0x1680 || (0x2000 ≤ c.toNat && c.toNat ≤ 0x200A) ||
  c == Char.ofNat 0x2028 || c == Char.ofNat 0x2029 || c == Char.ofNat 0x202F ||
  c == Char.ofNat 0x205F || c == Char.ofNat 0x3000 || c == Char.ofNat 0xFEFF

/-- Strip leading JavaScript whitespace. -/
def trimLeft (l : List Char) : List Char := l.dropWhile isJsWhite

/-- Strip trailing JavaScript whitespace. -/
def trimRight : List Char → List Char
  | [] => []
  | c :: cs =>
    let r := trimRight cs
    if r.isEmpty && isJsWhite c then [] else c :: r

/-- JavaScript `String.prototype.trim` on character lists. -/
def jsTrim (l : List Char) : List Char := trimRight (trimLeft l)

/-- The list is nonempty and its first character is not whitespace. -/
def headNonWhite : List Char → Bool
  | [] => false
  | c :: _ => !isJsWhite c

/-- The list is nonempty and its last character is not whitespace. -/
def lastNonWhite : List Char → Bool
  | [] => false
  | [c] => !isJsWhite c
  | _ :: c :: cs => lastNonWhite (c :: cs)

/-- `const safePrompt = prompt.replace(/minecraft|skywars/gi, "pixel fantasy").trim()`. -/
def safePrompt (p : String) : String := String.mk (jsTrim (substBrands p.data))

/-- The template text strictly between the leading newline of the backtick
literal and the interpolation `${safePrompt}`. -/
def tmplPre : String :=
  "Crie um ícone de app (logo) para um jogo RPG de aventura.\nEstilo: detalhado, dramático, alto contraste, ícone central, visual premium.\nElementos: "

/-- The template text strictly between the interpolation `${safePrompt}` and
the trailing newline of the backtick literal. -/
def tmplPost : String :=
  ".\nFundo: cor chapada (flat), sem textura, sem papel, sem mockup.\nSem texto, sem letras, sem marca d\x27água.\nFormato: app icon, cantos arredondados.\nPaleta: azul meia-noite, cinza aço, laranja fogo."

/-- The template text before `${safePrompt}`, including the leading newline
that follows the opening backtick. -/
def tmplHead : List Char := '\n' :: tmplPre.data

/-- The template text after `${safePrompt}`, including the trailing newline
that precedes the closing backtick. -/
def tmplTail : List Char := tmplPost.data ++ ['\n']

/-- `finalPrompt` of server.js: the backtick template with `safePrompt`
interpolated, then `.trim()`. -/
def finalPrompt (p : String) : String :=
  String.mk (jsTrim (tmplHead ++ (safePrompt p).data ++ tmplTail))

/-- `hay` contains `pat` as an exact substring. -/
def strContains (hay pat : String) : Bool := occursEq pat.data hay.data

/-- `hay` contains the lowercase word `pat` as a substring up to ASCII case. -/
def strContainsCI (hay pat : String) : Bool := occursCI pat.data hay.data

/-! ## Token generation (`makeToken` / `cryptoRandomString`, lines 65-73) -/

/-- `const chars = "abc...9"` — the 62-character alphanumeric alphabet. -/
def tokenAlphabet : List Char :=
  "abcdefghijklmnopqrstuvwxyzABCDEFGHIJKLMNOPQRSTUVWXYZ0123456789".data

/-- `cryptoRandomString(len)`: one character per index, each drawn by the
oracle `rnd` standing for `Math.floor(Math.random() * chars.length)`, which
always lies in `[0, 62)` because `Math.random() < 1`. -/
def cryptoRandomString (len : Nat) (rnd : Nat → Fin 62) : String :=
  String.mk ((List.range len).map fun i =>
    tokenAlphabet.get (Fin.cast (by decide) (rnd i)))

/-- `makeToken()` returns `cryptoRandomString(32)`. -/
def makeToken (rnd : Nat → Fin 62) : String := cryptoRandomString 32 rnd

/-! ## Data model -/

/-- The Token Store: `const paidTokens = new Set()`. -/
abbrev Store := Finset String

/-- A JSON request-body field as the handlers discriminate it: `missing`
stands for an absent field or any falsy non-string value, `str s` for the
string `s`, and `obj` for any truthy non-string value. -/
inductive JsVal where
  | missing
  | str (s : String)
  | obj
deriving DecidableEq

/-! ## Webhook receiver (`app.post("/webhook")`, lines 30-52) -/

/-- A webhook delivery.  `sigValid` models whether
`stripe.webhooks.constructEvent(req.body, sig, STRIPE_WEBHOOK_SECRET)`
succeeds; `eventType` and `metadataToken` model `event.type` and
`session?.metadata?.token` of the verified event (`none` when the metadata or
the token field is absent). -/
structure WebhookReq where
  sigValid : Bool
  eventType : String
  metadataToken : Option String
deriving DecidableEq

/-- Webhook handler outcome: `sigError` is the 400 `Webhook Error` response,
`received` the 200 `{ received: true }` response. -/
inductive WebhookResp where
  | sigError
  | received
deriving DecidableEq

/-- HTTP status of a webhook response. -/
def webhookStatus : WebhookResp → Nat
  | .sigError => 400
  | .received => 200

/-- The `/webhook` handler: reject unverified bodies with 400 before reading
any payload; on a verified `checkout.session.completed` event add the truthy
metadata token to the store; answer `{ received: true }` otherwise. -/
def webhookHandler (store : Store) (req : WebhookReq) : Store × WebhookResp :=
  if req.sigValid = false then
    (store, .sigError)
  else if req.eventType = "checkout.session.completed" then
    match req.metadataToken with
    | some tok => if tok = "" then (store, .received) else (insert tok store, .received)
    | none => (store, .received)
  else
    (store, .received)

/-! ## Generation gateway (`app.post("/api/generate")`, lines 129-185) -/

/-- The upstream images-API call as an oracle: `ok` is `resp.ok`, `text` the
body text read in the failure branch, `b64` and `url` the optional fields
`data?.data?.[0]?.b64_json` and `data?.data?.[0]?.url`. -/
structure UpstreamResp where
  ok : Bool
  text : String
  b64 : Option String
  url : Option String
deriving DecidableEq

/-- Generation handler outcome, one constructor per `return` of the source. -/
inductive GenResp where
  | forbidden
  | badPrompt
  | upstreamFail (details : String)
  | image (s : String)
  | unexpected
deriving DecidableEq

/-- HTTP status of a generation response. -/
def genStatus : GenResp → Nat
  | .forbidden => 403
  | .badPrompt => 400
  | .upstreamFail _ => 500
  | .image _ => 200
  | .unexpected => 500

/-- Result of one `/api/generate` request: the store afterwards, the HTTP
outcome, and the prompt sent upstream when the `fetch` happened. -/
structure GenResult where
  store : Store
  resp : GenResp
  upstreamPrompt : Option String

/-- `if (url) return res.json({ image: url }); return 500` — the tail of the
success branch, reached when `b64` is falsy. -/
def imageUrlResp (up : UpstreamResp) : GenResp :=
  match up.url with
  | some u => if u = "" then .unexpected else .image u
  | none => .unexpected

/-- `if (b64) ... if (url) ... return 500` — the response choice of the
success branch after the token has been deleted. -/
def imageResp (up : UpstreamResp) : GenResp :=
  match up.b64 with
  | some b => if b = "" then imageUrlResp up else .image ("data:image/png;base64," ++ b)
  | none => imageUrlResp up

/-- The `/api/generate` handler.  Checks, in source order: token truthy and in
the store (else 403); prompt a truthy string (else 400); upstream success
(else 500 with the upstream text, token kept); then deletes the token
unconditionally and answers with the base64 data URI, the hosted URL, or a
generic 500 when neither is present. -/
def generateHandler (store : Store) (tok pr : JsVal) (up : UpstreamResp) : GenResult :=
  match tok with
  | .str t =>
    if t = "" then ⟨store, .forbidden, none⟩
    else if t ∈ store then
      match pr with
      | .str p =>
        if p = "" then ⟨store, .badPrompt, none⟩
        else if up.ok = false then ⟨store, .upstreamFail up.text, some (finalPrompt p)⟩
        else ⟨store.erase t, imageResp up, some (finalPrompt p)⟩
      | _ => ⟨store, .badPrompt, none⟩
    else ⟨store, .forbidden, none⟩
  | _ => ⟨store, .forbidden, none⟩

/-! ## Traces of the system -/

/-- A store-affecting request: a webhook delivery, or a `/api/generate` call
together with its upstream oracle. -/
inductive Event where
  | webhook (req : WebhookReq)
  | generate (tok pr : JsVal) (up : UpstreamResp)

/-- The store after processing one event. -/
def step (store : Store) : Event → Store
  | .webhook req => (webhookHandler store req).1
  | .generate tok pr up => (generateHandler store tok pr up).store

/-- The store after processing a list of events from the initial empty set. -/
def run (es : List Event) : Store := es.foldl step ∅

/-- The event is a signature-verified `checkout.session.completed` webhook
carrying `t` in its session metadata. -/
def grants (e : Event) (t : String) : Prop :=
  match e with
  | .webhook req =>
    req.sigValid = true ∧ req.eventType = "checkout.session.completed" ∧
      req.metadataToken = some t
  | .generate _ _ _ => False

/-- The event is a `/api/generate` call with token `t` that consumed `t` from
the store `store` it ran against. -/
def consumes (store : Store) (e : Event) (t : String) : Prop :=
  match e with
  | .webhook _ => False
  | .generate tok pr up =>
    tok = .str t ∧ t ∈ store ∧ t ∉ (generateHandler store tok pr up).store

/-- The `i`-th event of a trace, if any. -/
def evAt : List Event → Nat → Option Event
  | [], _ => none
  | e :: _, 0 => some e
  | _ :: es, i + 1 => evAt es i

/-- The `i`-th event of the trace grants `t`. -/
def grantsAt (es : List Event) (i : Nat) (t : String) : Prop :=
  match evAt es i with
  | some e => grants e t
  | none => False

/-- The `j`-th event of the trace consumes `t` from the store reached after
the first `j` events. -/
def consumesAt (es : List Event) (j : Nat) (t : String) : Prop :=
  match evAt es j with
  | some e => consumes (run (es.take j)) e t
  | none => False

/-- `t` was granted by some processed webhook and not consumed since. -/
def validIn (es : List Event) (t : String) : Prop :=
  ∃ i, grantsAt es i t ∧ ∀ j, i < j → ¬ consumesAt es j t

/-! ## Lemmas about the sanitizer -/

theorem bool_false_of_not_true (b : Bool) (h : b = true → False) : b = false := by
  cases b
  · rfl
  · exact absurd rfl h

theorem startsWithCI_append_compat :
    ∀ (pat a b : List Char), startsWithCI pat (a ++ b) = true → compatCI pat a = true := by
  intro pat
  induction pat with
  | nil => intro a b _; cases a <;> rfl
  | cons p ps ih =>
    intro a b h
    cases a with
    | nil => rfl
    | cons c cs =>
      rw [List.cons_append] at h
      simp only [startsWithCI, Bool.and_eq_true] at h
      simp only [compatCI, Bool.and_eq_true]
      exact ⟨h.1, ih cs b h.2⟩

theorem startsWithCI_append_mono :
    ∀ (pat a b : List Char), startsWithCI pat a = true → startsWithCI pat (a ++ b) = true := by
  intro pat
  induction pat with
  | nil => intro a b _; rfl
  | cons p ps ih =>
    intro a b h
    cases a with
    | nil => exact absurd h (by simp [startsWithCI])
    | cons c cs =>
      rw [List.cons_append]
      simp only [startsWithCI, Bool.and_eq_true] at h ⊢
      exact ⟨h.1, ih cs b h.2⟩

theorem occursCI_of_startsWith (pat l : List Char) (h : startsWithCI pat l = true) :
    occursCI pat l = true := by
  cases l with
  | nil => exact h
  | cons c cs => simp only [occursCI, Bool.or_eq_true]; exact Or.inl h

theorem occursCI_append_left :
    ∀ (pat a b : List Char), occursCI pat b = true → occursCI pat (a ++ b) = true := by
  intro pat a
  induction a with
  | nil => intro b h; exact h
  | cons c cs ih =>
    intro b h
    rw [List.cons_append]
    simp only [occursCI, Bool.or_eq_true]
    exact Or.inr (ih b h)

theorem occursCI_append_right :
    ∀ (pat a b : List Char), occursCI pat a = true → occursCI pat (a ++ b) = true := by
  intro pat a
  induction a with
  | nil =>
    intro b h
    cases pat with
    | nil =>
      cases b with
      | nil => rfl
      | cons c cs => simp [occursCI, startsWithCI]
    | cons p ps => exact absurd h (by simp [occursCI, startsWithCI])
  | cons c cs ih =>
    intro b h
    simp only [occursCI, Bool.or_eq_true] at h
    rw [List.cons_append]
    simp only [occursCI, Bool.or_eq_true]
    rcases h with h | h
    · exact Or.inl (startsWithCI_append_mono pat (c :: cs) b h)
    · exact Or.inr (ih b h)

theorem blockedAppend (pat : List Char) :
    ∀ (a b : List Char), (∀ k, k < a.length → compatCI pat (a.drop k) = false) →
      occursCI pat b = false → occursCI pat (a ++ b) = false := by
  intro a
  induction a with
  | nil => intro b _ hb; exact hb
  | cons c cs ih =>
    intro b h hb
    have hY : occursCI pat (cs ++ b) = false :=
      ih b (fun k hk => h (k + 1) (Nat.succ_lt_succ hk)) hb
    have hX : startsWithCI pat ((c :: cs) ++ b) = false := by
      apply bool_false_of_not_true
      intro htrue
      have hc := startsWithCI_append_compat pat (c :: cs) b htrue
      have h0 := h 0 (Nat.zero_lt_succ _)
      rw [List.drop_zero] at h0
      rw [hc] at h0
      exact Bool.noConfusion h0
    rw [List.cons_append]
    simp only [occursCI]
    rw [List.cons_append] at hX
    rw [hX, hY]
    rfl

theorem sw_cons_false (p : Char) (ps : List Char) (c : Char) (X Y : List Char)
    (h1 : startsWithCI (p :: ps) (c :: Y) = false)
    (h2 : startsWithCI ps Y = false → startsWithCI ps X = false) :
    startsWithCI (p :: ps) (c :: X) = false := by
  simp only [startsWithCI] at h1 ⊢
  cases hqc : (p == c.toLower) with
  | false => rw [Bool.false_and]
  | true =>
    rw [Bool.true_and]
    rw [hqc, Bool.true_and] at h1
    exact h2 h1

theorem replBlocked_mc :
    ∀ k, k < replChars.length → compatCI mcChars (replChars.drop k) = false := by decide

theorem replBlocked_sw :
    ∀ k, k < replChars.length → compatCI swChars (replChars.drop k) = false := by decide

theorem tailBlocked_mc :
    ∀ j, 1 ≤ j → j < mcChars.length → compatCI (mcChars.drop j) replChars = false := by decide

theorem tailBlocked_sw :
    ∀ j, 1 ≤ j → j < swChars.length → compatCI (swChars.drop j) replChars = false := by decide

theorem subGo_no_new (pat : List Char)
    (hblock : ∀ j, 1 ≤ j → j < pat.length → compatCI (pat.drop j) replChars = false) :
    ∀ f l j, l.length ≤ f → 1 ≤ j → j < pat.length →
      startsWithCI (pat.drop j) l = false → startsWithCI (pat.drop j) (subGo f l) = false := by
  intro f
  induction f with
  | zero =>
    intro l j hlen _ _ hsw
    have hnil : l = [] := List.length_eq_zero.1 (Nat.le_zero.1 hlen)
    subst hnil
    simpa [subGo] using hsw
  | succ f ih =>
    intro l j hlen h1 hj hsw
    cases l with
    | nil => simpa [subGo] using hsw
    | cons c cs =>
      have hcs : cs.length ≤ f := Nat.le_of_succ_le_succ (by simpa using hlen)
      obtain ⟨q, qs, hq⟩ : ∃ q qs, pat.drop j = q :: qs := by
        cases hd : pat.drop j with
        | nil =>
          exfalso
          have := congrArg List.length hd
          simp [List.length_drop] at this
          omega
        | cons q qs => exact ⟨q, qs, rfl⟩
      have hqs : qs = pat.drop (j + 1) := by
        have h2 : (pat.drop j).drop 1 = pat.drop (j + 1) := List.drop_drop 1 j pat
        rw [hq] at h2
        simpa using h2
      by_cases hmc : startsWithCI mcChars (c :: cs) = true
      · simp only [subGo, hmc, if_true]
        apply bool_false_of_not_true
        intro htrue
        have hc := startsWithCI_append_compat _ _ _ htrue
        have hb := hblock j h1 hj
        rw [hc] at hb
        exact Bool.noConfusion hb
      · by_cases hsw2 : startsWithCI swChars (c :: cs) = true
        · simp only [subGo, hmc, hsw2, if_true, if_false, Bool.false_eq_true]
          apply bool_false_of_not_true
          intro htrue
          have hc := startsWithCI_append_compat _ _ _ htrue
          have hb := hblock j h1 hj
          rw [hc] at hb
          exact Bool.noConfusion hb
        · have hred : subGo (f + 1) (c :: cs) = c :: subGo f cs := by
            simp [subGo, hmc, hsw2]
          rw [hred, hq]
          rw [hq] at hsw
          refine sw_cons_false q qs c (subGo f cs) cs hsw ?_
          intro hf
          rcases Nat.lt_or_ge (j + 1) pat.length with hlt | hge
          · have := ih cs (j + 1) hcs (by omega) hlt
            rw [← hqs] at this
            exact this hf
          · exfalso
            have hdone : qs = [] := by
              rw [hqs]
              exact List.drop_eq_nil_of_le hge
            rw [hdone] at hf
            exact Bool.noConfusion hf

theorem subGo_no_occurs :
    ∀ f l, l.length ≤ f →
      occursCI mcChars (subGo f l) = false ∧ occursCI swChars (subGo f l) = false := by
  intro f
  induction f with
  | zero =>
    intro l hlen
    have hnil : l = [] := List.length_eq_zero.1 (Nat.le_zero.1 hlen)
    subst hnil
    constructor <;> decide
  | succ f ih =>
    intro l hlen
    cases l with
    | nil => constructor <;> simp [subGo, occursCI, mcChars, swChars, startsWithCI]
    | cons c cs =>
      have hcs : cs.length ≤ f := Nat.le_of_succ_le_succ (by simpa using hlen)
      by_cases hmc : startsWithCI mcChars (c :: cs) = true
      · have hlen8 : (cs.drop 8).length ≤ f :=
          Nat.le_trans (by rw [List.length_drop]; omega) hcs
        have hrec := ih (cs.drop 8) hlen8
        have hred : subGo (f + 1) (c :: cs) = replChars ++ subGo f (cs.drop 8) := by
          simp [subGo, hmc]
        rw [hred]
        exact ⟨blockedAppend mcChars replChars _ replBlocked_mc hrec.1,
          blockedAppend swChars replChars _ replBlocked_sw hrec.2⟩
      · by_cases hsw2 : startsWithCI swChars (c :: cs) = true
        · have hlen6 : (cs.drop 6).length ≤ f :=
            Nat.le_trans (by rw [List.length_drop]; omega) hcs
          have hrec := ih (cs.drop 6) hlen6
          have hred : subGo (f + 1) (c :: cs) = replChars ++ subGo f (cs.drop 6) := by
            simp [subGo, hmc, hsw2]
          rw [hred]
          exact ⟨blockedAppend mcChars replChars _ replBlocked_mc hrec.1,
            blockedAppend swChars replChars _ replBlocked_sw hrec.2⟩
        · have hred : subGo (f + 1) (c :: cs) = c :: subGo f cs := by
            simp [subGo, hmc, hsw2]
          rw [hred]
          have hrec := ih cs hcs
          have hmc' : startsWithCI mcChars (c :: cs) = false := by
            revert hmc; cases startsWithCI mcChars (c :: cs) <;> simp
          have hsw2' : startsWithCI swChars (c :: cs) = false := by
            revert hsw2; cases startsWithCI swChars (c :: cs) <;> simp
          have hfirst_mc : startsWithCI mcChars (c :: subGo f cs) = false := by
            refine sw_cons_false 'm' (mcChars.drop 1) c (subGo f cs) cs hmc' ?_
            intro hf
            exact subGo_no_new mcChars tailBlocked_mc f cs 1 hcs (by omega) (by decide) hf
          have hfirst_sw : startsWithCI swChars (c :: subGo f cs) = false := by
            refine sw_cons_false 's' (swChars.drop 1) c (subGo f cs) cs hsw2' ?_
            intro hf
            exact subGo_no_new swChars tailBlocked_sw f cs 1 hcs (by omega) (by decide) hf
          constructor
          · simp only [occursCI]
            rw [hfirst_mc, hrec.1]
            rfl
          · simp only [occursCI]
            rw [hfirst_sw, hrec.2]
            rfl

/-! ## Lemmas about trimming -/

theorem trimLeft_white_cons (c : Char) (h : isJsWhite c = true) (l : List Char) :
    trimLeft (c :: l) = trimLeft l := by
  simp [trimLeft, List.dropWhile_cons, h]

theorem headNonWhite_append (a b : List Char) (h : headNonWhite a = true) :
    headNonWhite (a ++ b) = true := by
  cases a with
  | nil => exact absurd h (by simp [headNonWhite])
  | cons c cs => exact h

theorem trimLeft_nonwhite (l : List Char) (h : headNonWhite l = true) : trimLeft l = l := by
  cases l with
  | nil => rfl
  | cons c cs =>
    have hc : isJsWhite c = false := by
      simpa [headNonWhite] using h
    simp [trimLeft, List.dropWhile_cons, hc]

theorem occursCI_trimLeft (pat l : List Char) (h : occursCI pat (trimLeft l) = true) :
    occursCI pat l = true := by
  induction l with
  | nil => exact h
  | cons c cs ih =>
    by_cases hw : isJsWhite c = true
    · rw [trimLeft_white_cons c hw] at h
      simp only [occursCI, Bool.or_eq_true]
      exact Or.inr (ih h)
    · have hw' : isJsWhite c = false := by
        revert hw; cases isJsWhite c <;> simp
      rwa [trimLeft_nonwhite (c :: cs) (by simp [headNonWhite, hw'])] at h

theorem trimRight_decomp : ∀ l : List Char, ∃ b, trimRight l ++ b = l := by
  intro l
  induction l with
  | nil => exact ⟨[], rfl⟩
  | cons c cs ih =>
    obtain ⟨b, hb⟩ := ih
    by_cases hempty : ((trimRight cs).isEmpty && isJsWhite c) = true
    · refine ⟨c :: cs, ?_⟩
      simp [trimRight, hempty]
    · refine ⟨b, ?_⟩
      show (if (trimRight cs).isEmpty && isJsWhite c then [] else c :: trimRight cs) ++ b
        = c :: cs
      rw [if_neg hempty]
      simp [hb]

theorem occursCI_trimRight (pat l : List Char) (h : occursCI pat (trimRight l) = true) :
    occursCI pat l = true := by
  obtain ⟨b, hb⟩ := trimRight_decomp l
  rw [← hb]
  exact occursCI_append_right pat (trimRight l) b h

theorem trimRight_append_white (c : Char) (hc : isJsWhite c = true) :
    ∀ l, trimRight (l ++ [c]) = trimRight l := by
  intro l
  induction l with
  | nil => simp [trimRight, hc]
  | cons d ds ih =>
    rw [List.cons_append]
    simp only [trimRight]
    rw [ih]

theorem lastNonWhite_append (Y B : List Char) (hB : lastNonWhite B = true) :
    lastNonWhite (Y ++ B) = true := by
  induction Y with
  | nil => exact hB
  | cons y ys ih =>
    have hne : ys ++ B ≠ [] := by
      intro hnil
      rcases List.append_eq_nil.1 hnil with ⟨-, hBnil⟩
      rw [hBnil] at hB
      exact Bool.noConfusion hB
    cases hcase : ys ++ B with
    | nil => exact absurd hcase hne
    | cons z rest =>
      rw [hcase] at ih
      rw [List.cons_append, hcase]
      simpa [lastNonWhite] using ih

theorem trimRight_self_of_last : ∀ l, lastNonWhite l = true → trimRight l = l := by
  intro l
  induction l with
  | nil => intro h; exact absurd h (by simp [lastNonWhite])
  | cons c cs ih =>
    intro h
    cases cs with
    | nil =>
      have hc : isJsWhite c = false := by
        simpa [lastNonWhite] using h
      simp [trimRight, hc]
    | cons d ds =>
      have h' : lastNonWhite (d :: ds) = true := by
        simpa [lastNonWhite] using h
      have hind := ih h'
      show (if (trimRight (d :: ds)).isEmpty && isJsWhite c then []
        else c :: trimRight (d :: ds)) = c :: d :: ds
      rw [hind]
      simp

theorem string_data_append (a b : String) : (a ++ b).data = a.data ++ b.data := rfl

theorem finalPrompt_decomp (p : String) :
    finalPrompt p = tmplPre ++ safePrompt p ++ tmplPost := by
  unfold finalPrompt tmplHead tmplTail jsTrim
  rw [List.cons_append, List.cons_append, trimLeft_white_cons '\n' (by decide)]
  rw [trimLeft_nonwhite _
    (headNonWhite_append _ _ (headNonWhite_append tmplPre.data _ (by decide)))]
  rw [show (tmplPre.data ++ (safePrompt p).data) ++ (tmplPost.data ++ ['\n'])
      = ((tmplPre.data ++ (safePrompt p).data) ++ tmplPost.data) ++ ['\n'] by
    simp [List.append_assoc]]
  rw [trimRight_append_white '\n' (by decide)]
  rw [trimRight_self_of_last _
    (lastNonWhite_append (tmplPre.data ++ (safePrompt p).data) tmplPost.data (by decide))]
  refine String.ext ?_
  simp [string_data_append, List.append_assoc]

theorem safePrompt_no_brands (p : String) :
    occursCI mcChars (safePrompt p).data = false ∧
    occursCI swChars (safePrompt p).data = false := by
  have h := subGo_no_occurs p.data.length p.data (Nat.le_refl _)
  constructor
  · apply bool_false_of_not_true
    intro htrue
    have h1 := occursCI_trimRight _ _ htrue
    have h2 := occursCI_trimLeft _ _ h1
    unfold substBrands at h2
    rw [h.1] at h2
    exact Bool.noConfusion h2
  · apply bool_false_of_not_true
    intro htrue
    have h1 := occursCI_trimRight _ _ htrue
    have h2 := occursCI_trimLeft _ _ h1
    unfold substBrands at h2
    rw [h.2] at h2
    exact Bool.noConfusion h2

theorem startsWithEq_refl : ∀ l : List Char, startsWithEq l l = true := by
  intro l
  induction l with
  | nil => rfl
  | cons c cs ih => simp [startsWithEq, ih]

theorem startsWithEq_append_mono :
    ∀ (pat a b : List Char), startsWithEq pat a = true → startsWithEq pat (a ++ b) = true := by
  intro pat
  induction pat with
  | nil => intro a b _; rfl
  | cons p ps ih =>
    intro a b h
    cases a with
    | nil => exact absurd h (by simp [startsWithEq])
    | cons c cs =>
      rw [List.cons_append]
      simp only [startsWithEq, Bool.and_eq_true] at h ⊢
      exact ⟨h.1, ih cs b h.2⟩

theorem occursEq_of_startsWith (pat l : List Char) (h : startsWithEq pat l = true) :
    occursEq pat l = true := by
  cases l with
  | nil => exact h
  | cons c cs => simp only [occursEq, Bool.or_eq_true]; exact Or.inl h

theorem occursEq_append_left :
    ∀ (pat a b : List Char), occursEq pat b = true → occursEq pat (a ++ b) = true := by
  intro pat a
  induction a with
  | nil => intro b h; exact h
  | cons c cs ih =>
    intro b h
    rw [List.cons_append]
    simp only [occursEq, Bool.or_eq_true]
    exact Or.inr (ih b h)

theorem occursEq_append_right :
    ∀ (pat a b : List Char), occursEq pat a = true → occursEq pat (a ++ b) = true := by
  intro pat a
  induction a with
  | nil =>
    intro b h
    cases pat with
    | nil =>
      cases b with
      | nil => rfl
      | cons c cs => simp [occursEq, startsWithEq]
    | cons p ps => exact absurd h (by simp [occursEq, startsWithEq])
  | cons c cs ih =>
    intro b h
    simp only [occursEq, Bool.or_eq_true] at h
    rw [List.cons_append]
    simp only [occursEq, Bool.or_eq_true]
    rcases h with h | h
    · exact Or.inl (startsWithEq_append_mono pat (c :: cs) b h)
    · exact Or.inr (ih b h)

theorem tmplPreBlocked_mc :
    ∀ k, k < tmplPre.data.length → compatCI mcChars (tmplPre.data.drop k) = false := by decide

theorem tmplPostClean_mc : occursCI mcChars tmplPost.data = false := by decide

/-- Claim C5: for prompt `minecraft castle`, the composed upstream prompt
contains `pixel fantasy castle` and never the word `minecraft` (up to ASCII
case); in general the denylist substitution leaves no case-insensitive
occurrence of `minecraft` or `skywars` in the sanitized prompt, which is then
embedded between the two fixed template halves. -/
theorem prompt_sanitization :
    strContains (finalPrompt "minecraft castle") "pixel fantasy castle" = true ∧
    strContainsCI (finalPrompt "minecraft castle") "minecraft" = false ∧
    (∀ p : String, strContainsCI (safePrompt p) "minecraft" = false ∧
      strContainsCI (safePrompt p) "skywars" = false) ∧
    (∀ p : String, finalPrompt p = tmplPre ++ safePrompt p ++ tmplPost) := by
  have hsafe : safePrompt "minecraft castle" = "pixel fantasy castle" := by decide
  have hdec := finalPrompt_decomp "minecraft castle"
  rw [hsafe] at hdec
  refine ⟨?_, ?_, ?_, finalPrompt_decomp⟩
  · rw [hdec]
    unfold strContains
    rw [string_data_append, string_data_append]
    apply occursEq_append_right
    apply occursEq_append_left
    exact occursEq_of_startsWith _ _ (startsWithEq_refl _)
  · rw [hdec]
    unfold strContainsCI
    rw [show ("minecraft".data : List Char) = mcChars from by decide]
    rw [string_data_append, string_data_append]
    rw [List.append_assoc]
    apply blockedAppend mcChars tmplPre.data _ tmplPreBlocked_mc
    apply blockedAppend mcChars ("pixel fantasy castle").data _ (by decide)
    exact tmplPostClean_mc
  · intro p
    constructor
    · unfold strContainsCI
      rw [show ("minecraft".data : List Char) = mcChars from by decide]
      exact (safePrompt_no_brands p).1
    · unfold strContainsCI
      rw [show ("skywars".data : List Char) = swChars from by decide]
      exact (safePrompt_no_brands p).2

/-! ## Trace lemmas for the store invariant -/

theorem run_snoc (es : List Event) (e : Event) : run (es ++ [e]) = step (run es) e := by
  simp [run, List.foldl_append]

theorem evAt_append_lt (es : List Event) (e : Event) :
    ∀ i, i < es.length → evAt (es ++ [e]) i = evAt es i := by
  induction es with
  | nil => intro i hi; exact absurd hi (Nat.not_lt_zero i)
  | cons a es ih =>
    intro i hi
    cases i with
    | zero => rfl
    | succ i => exact ih i (Nat.lt_of_succ_lt_succ hi)

theorem evAt_append_len (es : List Event) (e : Event) :
    evAt (es ++ [e]) es.length = some e := by
  induction es with
  | nil => rfl
  | cons a es ih => exact ih

theorem evAt_none (es : List Event) : ∀ i, es.length ≤ i → evAt es i = none := by
  induction es with
  | nil => intro i _; rfl
  | cons a es ih =>
    intro i hi
    cases i with
    | zero => exact absurd hi (by simp)
    | succ i => exact ih i (Nat.le_of_succ_le_succ hi)

theorem grantsAt_lt (es : List Event) (i : Nat) (t : String) (h : grantsAt es i t) :
    i < es.length := by
  by_contra hlt
  unfold grantsAt at h
  rw [evAt_none es i (Nat.le_of_not_lt hlt)] at h
  exact h

theorem consumesAt_lt (es : List Event) (j : Nat) (t : String) (h : consumesAt es j t) :
    j < es.length := by
  by_contra hlt
  unfold consumesAt at h
  rw [evAt_none es j (Nat.le_of_not_lt hlt)] at h
  exact h

theorem grantsAt_append_lt (es : List Event) (e : Event) (i : Nat) (t : String)
    (hi : i < es.length) : grantsAt (es ++ [e]) i t ↔ grantsAt es i t := by
  unfold grantsAt
  rw [evAt_append_lt es e i hi]

theorem grantsAt_append_len (es : List Event) (e : Event) (t : String) :
    grantsAt (es ++ [e]) es.length t ↔ grants e t := by
  unfold grantsAt
  rw [evAt_append_len]

theorem consumesAt_append_lt (es : List Event) (e : Event) (j : Nat) (t : String)
    (hj : j < es.length) : consumesAt (es ++ [e]) j t ↔ consumesAt es j t := by
  unfold consumesAt
  rw [evAt_append_lt es e j hj, List.take_append_of_le_length (Nat.le_of_lt hj)]

theorem consumesAt_append_len (es : List Event) (e : Event) (t : String) :
    consumesAt (es ++ [e]) es.length t ↔ consumes (run es) e t := by
  unfold consumesAt
  rw [evAt_append_len, List.take_left]

theorem mem_webhook_iff (s : Store) (req : WebhookReq) (t : String) (ht : t ≠ "") :
    t ∈ (webhookHandler s req).1 ↔
      (req.sigValid = true ∧ req.eventType = "checkout.session.completed" ∧
        req.metadataToken = some t) ∨ t ∈ s := by
  unfold webhookHandler
  by_cases hs : req.sigValid = false
  · simp [hs]
  · have hs' : req.sigValid = true := by revert hs; cases req.sigValid <;> simp
    by_cases he : req.eventType = "checkout.session.completed"
    · cases hmt : req.metadataToken with
      | none => simp [hs, hs', he, hmt]
      | some tok =>
        by_cases htok : tok = ""
        · subst htok
          simp [hs, hs', he, hmt, Ne.symm ht]
        · simp [hs, hs', he, hmt, htok, Finset.mem_insert, eq_comm]
    · simp [hs, hs', he]

theorem gen_result_store (s : Store) (tok pr : JsVal) (up : UpstreamResp) :
    (generateHandler s tok pr up).store = s ∨
      ∃ u, tok = JsVal.str u ∧ (generateHandler s tok pr up).store = s.erase u := by
  cases tok with
  | missing => left; rfl
  | obj => left; rfl
  | str u =>
    by_cases hu : u = ""
    · left; simp [generateHandler, hu]
    · by_cases hm : u ∈ s
      · cases pr with
        | str p =>
          by_cases hp : p = ""
          · left; simp [generateHandler, hu, hm, hp]
          · by_cases hok : up.ok = false
            · left; simp [generateHandler, hu, hm, hp, hok]
            · right; exact ⟨u, rfl, by simp [generateHandler, hu, hm, hp, hok]⟩
        | missing => left; simp [generateHandler, hu, hm]
        | obj => left; simp [generateHandler, hu, hm]
      · left; simp [generateHandler, hu, hm]

theorem mem_gen_iff (s : Store) (tok pr : JsVal) (up : UpstreamResp) (t : String) :
    t ∈ (generateHandler s tok pr up).store ↔
      t ∈ s ∧ ¬ consumes s (Event.generate tok pr up) t := by
  rcases gen_result_store s tok pr up with h | ⟨u, htok, h⟩
  · simp only [consumes]
    rw [h]
    constructor
    · intro hts
      exact ⟨hts, by rintro ⟨-, -, hno⟩; exact hno hts⟩
    · exact And.left
  · subst htok
    simp only [consumes]
    rw [h, Finset.mem_erase]
    by_cases hut : u = t
    · subst hut
      simp
    · simp [Ne.symm hut, hut]

theorem mem_step_iff (s : Store) (e : Event) (t : String) (ht : t ≠ "") :
    t ∈ step s e ↔ grants e t ∨ (t ∈ s ∧ ¬ consumes s e t) := by
  cases e with
  | webhook req =>
    simp only [step, grants, consumes]
    rw [mem_webhook_iff s req t ht]
    simp
  | generate tok pr up =>
    simp only [step, grants]
    rw [mem_gen_iff]
    simp

theorem validIn_append (es : List Event) (e : Event) (t : String) :
    validIn (es ++ [e]) t ↔ grants e t ∨ (validIn es t ∧ ¬ consumes (run es) e t) := by
  constructor
  · rintro ⟨i, hg, hall⟩
    have hi : i < es.length + 1 := by
      have := grantsAt_lt _ _ _ hg
      simpa using this
    rcases Nat.lt_succ_iff_lt_or_eq.1 hi with hlt | heq
    · right
      refine ⟨⟨i, (grantsAt_append_lt es e i t hlt).1 hg, ?_⟩, ?_⟩
      · intro j hij hc
        have hj := consumesAt_lt _ _ _ hc
        exact hall j hij ((consumesAt_append_lt es e j t hj).2 hc)
      · intro hc
        exact hall es.length hlt ((consumesAt_append_len es e t).2 hc)
    · subst heq
      exact Or.inl ((grantsAt_append_len es e t).1 hg)
  · rintro (hg | ⟨⟨i, hgi, hall⟩, hnc⟩)
    · refine ⟨es.length, (grantsAt_append_len es e t).2 hg, ?_⟩
      intro j hj hc
      have hlt := consumesAt_lt _ _ _ hc
      simp at hlt
      omega
    · have hi := grantsAt_lt _ _ _ hgi
      refine ⟨i, (grantsAt_append_lt es e i t hi).2 hgi, ?_⟩
      intro j hij hc
      have hj : j < es.length + 1 := by
        have := consumesAt_lt _ _ _ hc
        simpa using this
      rcases Nat.lt_succ_iff_lt_or_eq.1 hj with hlt | heq
      · exact hall j hij ((consumesAt_append_lt es e j t hlt).1 hc)
      · subst heq
        exact hnc ((consumesAt_append_len es e t).1 hc)

theorem mem_run_iff (t : String) (ht : t ≠ "") : ∀ es, t ∈ run es ↔ validIn es t := by
  intro es
  induction es using List.reverseRecOn with
  | nil => simp [run, validIn, grantsAt, evAt]
  | append_singleton es e ih =>
    rw [run_snoc, mem_step_iff _ _ _ ht, validIn_append, ih]

/-- Claim C1: in every reachable state (the store after any trace of webhook
and generate events, starting empty), a token is in the Token Store iff some
processed signature-verified `checkout.session.completed` webhook carried it
in its session metadata and no later successful `POST /api/generate` call
consumed it. -/
theorem tokenStore_membership_iff (es : List Event) (t : String) (ht : t ≠ "") :
    t ∈ run es ↔ ∃ i, grantsAt es i t ∧ ∀ j, i < j → ¬ consumesAt es j t :=
  mem_run_iff t ht es

theorem tokenStore_membership_iff_witness :
    ("T1" : String) ≠ "" ∧
    (("T1" ∈ run [Event.webhook ⟨true, "checkout.session.completed", some "T1"⟩]) ↔
      ∃ i, grantsAt [Event.webhook ⟨true, "checkout.session.completed", some "T1"⟩] i "T1" ∧
        ∀ j, i < j →
          ¬ consumesAt [Event.webhook ⟨true, "checkout.session.completed", some "T1"⟩] j "T1") ∧
    "T1" ∈ run [Event.webhook ⟨true, "checkout.session.completed", some "T1"⟩] :=
  ⟨by decide,
   tokenStore_membership_iff [Event.webhook ⟨true, "checkout.session.completed", some "T1"⟩]
     "T1" (by decide),
   by decide⟩

/-! ## Claims about the webhook receiver -/

/-- Claim C4: a `POST /webhook` request whose body fails signature
verification against the shared webhook secret gets a 400 response and leaves
the Token Store unchanged — the signature is checked before any payload
content is read. -/
theorem webhook_invalid_signature_400 (store : Store) (req : WebhookReq)
    (h : req.sigValid = false) :
    (webhookHandler store req).1 = store ∧
    (webhookHandler store req).2 = WebhookResp.sigError ∧
    webhookStatus (webhookHandler store req).2 = 400 := by
  simp [webhookHandler, h, webhookStatus]

theorem webhook_invalid_signature_400_witness :
    (webhookHandler ∅ ⟨false, "checkout.session.completed", some "T1"⟩).1 = ∅ ∧
    (webhookHandler ∅ ⟨false, "checkout.session.completed", some "T1"⟩).2 = WebhookResp.sigError ∧
    webhookStatus (webhookHandler ∅ ⟨false, "checkout.session.completed", some "T1"⟩).2 = 400 :=
  webhook_invalid_signature_400 ∅ ⟨false, "checkout.session.completed", some "T1"⟩ rfl

/-- Claim C8: a signature-verified webhook whose event type is not
`checkout.session.completed` leaves the Token Store unchanged and answers
200 `{ received: true }`. -/
theorem webhook_ignores_other_events (store : Store) (req : WebhookReq)
    (hs : req.sigValid = true) (he : req.eventType ≠ "checkout.session.completed") :
    webhookHandler store req = (store, WebhookResp.received) ∧
    webhookStatus (webhookHandler store req).2 = 200 := by
  simp [webhookHandler, hs, he, webhookStatus]

theorem webhook_ignores_other_events_witness :
    webhookHandler ∅ ⟨true, "invoice.paid", some "T1"⟩ = (∅, WebhookResp.received) ∧
    webhookStatus (webhookHandler ∅ ⟨true, "invoice.paid", some "T1"⟩).2 = 200 :=
  webhook_ignores_other_events ∅ ⟨true, "invoice.paid", some "T1"⟩ rfl (by decide)

/-! ## Claims about the generation gateway -/

/-- Claim C2: a `POST /api/generate` request whose token field is absent or
not a member of the Token Store gets a 403 response and leaves the store
unchanged. -/
theorem generate_unknown_token_403 (store : Store) (tok pr : JsVal) (up : UpstreamResp)
    (h : tok = JsVal.missing ∨ ¬ ∃ s, tok = JsVal.str s ∧ s ∈ store) :
    (generateHandler store tok pr up).store = store ∧
    (generateHandler store tok pr up).resp = GenResp.forbidden ∧
    genStatus (generateHandler store tok pr up).resp = 403 := by
  cases tok with
  | missing => simp [generateHandler, genStatus]
  | obj => simp [generateHandler, genStatus]
  | str t =>
    have hmem : t ∉ store := by
      rcases h with h | h
      · simp at h
      · intro hm
        exact h ⟨t, rfl, hm⟩
    by_cases ht : t = ""
    · simp [generateHandler, ht, genStatus]
    · simp [generateHandler, ht, hmem, genStatus]

theorem generate_unknown_token_403_witness :
    (generateHandler ∅ (JsVal.str "x") (JsVal.str "dragon") ⟨true, "", none, none⟩).store = ∅ ∧
    (generateHandler ∅ (JsVal.str "x") (JsVal.str "dragon") ⟨true, "", none, none⟩).resp
      = GenResp.forbidden ∧
    genStatus (generateHandler ∅ (JsVal.str "x") (JsVal.str "dragon")
      ⟨true, "", none, none⟩).resp = 403 :=
  generate_unknown_token_403 ∅ (JsVal.str "x") (JsVal.str "dragon") ⟨true, "", none, none⟩
    (Or.inr (by rintro ⟨s, -, hm⟩; exact absurd hm (Finset.not_mem_empty s)))

/-- Claim C7: a `POST /api/generate` request whose token is in the Token
Store but whose prompt field is missing or not a string gets a 400 response. -/
theorem generate_invalid_prompt_400 (store : Store) (t : String) (pr : JsVal)
    (up : UpstreamResp) (ht : t ≠ "") (hmem : t ∈ store)
    (hpr : pr = JsVal.missing ∨ pr = JsVal.obj) :
    (generateHandler store (JsVal.str t) pr up).resp = GenResp.badPrompt ∧
    genStatus (generateHandler store (JsVal.str t) pr up).resp = 400 := by
  rcases hpr with h | h <;> subst h <;> simp [generateHandler, ht, hmem, genStatus]

theorem generate_invalid_prompt_400_witness :
    (generateHandler {"T1"} (JsVal.str "T1") JsVal.missing ⟨true, "", none, none⟩).resp
      = GenResp.badPrompt ∧
    genStatus (generateHandler {"T1"} (JsVal.str "T1") JsVal.missing
      ⟨true, "", none, none⟩).resp = 400 :=
  generate_invalid_prompt_400 {"T1"} "T1" JsVal.missing ⟨true, "", none, none⟩
    (by decide) (by decide) (Or.inl rfl)

/-- Claim C3: a `POST /api/generate` call with a token in the Token Store, a
valid string prompt, and an upstream success status removes the token from
the store unconditionally; when the upstream body has neither a truthy
`b64_json` nor a truthy `url` field the response is still a 500, but the
token is gone. -/
theorem generate_consumes_token_unconditionally (store : Store) (t p : String)
    (up : UpstreamResp) (ht : t ≠ "") (hmem : t ∈ store) (hp : p ≠ "")
    (hok : up.ok = true) :
    (generateHandler store (JsVal.str t) (JsVal.str p) up).store = store.erase t ∧
    t ∉ (generateHandler store (JsVal.str t) (JsVal.str p) up).store ∧
    ((up.b64 = none ∨ up.b64 = some "") → (up.url = none ∨ up.url = some "") →
      (generateHandler store (JsVal.str t) (JsVal.str p) up).resp = GenResp.unexpected ∧
      genStatus (generateHandler store (JsVal.str t) (JsVal.str p) up).resp = 500) := by
  have hred : generateHandler store (JsVal.str t) (JsVal.str p) up
      = ⟨store.erase t, imageResp up, some (finalPrompt p)⟩ := by
    simp [generateHandler, ht, hmem, hp, hok]
  refine ⟨by rw [hred], by rw [hred]; exact Finset.not_mem_erase t store, ?_⟩
  intro hb hu
  rw [hred]
  rcases hb with hb | hb <;> rcases hu with hu | hu <;>
    simp [imageResp, imageUrlResp, hb, hu, genStatus]

theorem generate_consumes_token_unconditionally_witness :
    (generateHandler {"T1"} (JsVal.str "T1") (JsVal.str "dragon")
      ⟨true, "", none, none⟩).store = ({"T1"} : Store).erase "T1" ∧
    "T1" ∉ (generateHandler {"T1"} (JsVal.str "T1") (JsVal.str "dragon")
      ⟨true, "", none, none⟩).store ∧
    (generateHandler {"T1"} (JsVal.str "T1") (JsVal.str "dragon")
      ⟨true, "", none, none⟩).resp = GenResp.unexpected ∧
    genStatus (generateHandler {"T1"} (JsVal.str "T1") (JsVal.str "dragon")
      ⟨true, "", none, none⟩).resp = 500 :=
  ⟨(generate_consumes_token_unconditionally {"T1"} "T1" "dragon" ⟨true, "", none, none⟩
      (by decide) (by decide) (by decide) rfl).1,
   (generate_consumes_token_unconditionally {"T1"} "T1" "dragon" ⟨true, "", none, none⟩
      (by decide) (by decide) (by decide) rfl).2.1,
   (generate_consumes_token_unconditionally {"T1"} "T1" "dragon" ⟨true, "", none, none⟩
      (by decide) (by decide) (by decide) rfl).2.2 (Or.inl rfl) (Or.inl rfl)⟩

/-- Claim C9: a `POST /api/generate` call with a valid token and prompt whose
upstream call reports a non-success status gets a 500 response carrying the
upstream error text, and the token stays in the Token Store, reusable. -/
theorem generate_upstream_failure_preserves_token (store : Store) (t p : String)
    (up : UpstreamResp) (ht : t ≠ "") (hmem : t ∈ store) (hp : p ≠ "")
    (hfail : up.ok = false) :
    generateHandler store (JsVal.str t) (JsVal.str p) up
      = ⟨store, GenResp.upstreamFail up.text, some (finalPrompt p)⟩ ∧
    t ∈ (generateHandler store (JsVal.str t) (JsVal.str p) up).store ∧
    genStatus (generateHandler store (JsVal.str t) (JsVal.str p) up).resp = 500 := by
  have hred : generateHandler store (JsVal.str t) (JsVal.str p) up
      = ⟨store, GenResp.upstreamFail up.text, some (finalPrompt p)⟩ := by
    simp [generateHandler, ht, hmem, hp, hfail]
  exact ⟨hred, by rw [hred]; exact hmem, by rw [hred]; rfl⟩

theorem generate_upstream_failure_preserves_token_witness :
    generateHandler {"T1"} (JsVal.str "T1") (JsVal.str "dragon") ⟨false, "boom", none, none⟩
      = ⟨{"T1"}, GenResp.upstreamFail "boom", some (finalPrompt "dragon")⟩ ∧
    "T1" ∈ (generateHandler {"T1"} (JsVal.str "T1") (JsVal.str "dragon")
      ⟨false, "boom", none, none⟩).store ∧
    genStatus (generateHandler {"T1"} (JsVal.str "T1") (JsVal.str "dragon")
      ⟨false, "boom", none, none⟩).resp = 500 :=
  generate_upstream_failure_preserves_token {"T1"} "T1" "dragon"
    ⟨false, "boom", none, none⟩ (by decide) (by decide) (by decide) rfl

/-- Claim C10: in `POST /api/generate` the 403 token check precedes the 400
prompt check (an unauthorized request with a bad prompt still gets 403), and
a verified `checkout.session.completed` webhook whose session metadata lacks
a token, or carries the empty string, adds nothing to the Token Store while
still answering 200. -/
theorem authz_before_validation_and_empty_token :
    (∀ (store : Store) (tok pr : JsVal) (up : UpstreamResp),
      (tok = JsVal.missing ∨ ¬ ∃ s, tok = JsVal.str s ∧ s ∈ store) →
      (pr = JsVal.missing ∨ pr = JsVal.obj) →
      (generateHandler store tok pr up).resp = GenResp.forbidden ∧
      genStatus (generateHandler store tok pr up).resp = 403) ∧
    (∀ (store : Store) (req : WebhookReq),
      req.sigValid = true → req.eventType = "checkout.session.completed" →
      (req.metadataToken = none ∨ req.metadataToken = some "") →
      webhookHandler store req = (store, WebhookResp.received) ∧
      webhookStatus (webhookHandler store req).2 = 200) := by
  constructor
  · intro store tok pr up htok _hpr
    cases tok with
    | missing => simp [generateHandler, genStatus]
    | obj => simp [generateHandler, genStatus]
    | str t =>
      have hmem : t ∉ store := by
        rcases htok with h | h
        · simp at h
        · intro hm
          exact h ⟨t, rfl, hm⟩
      by_cases ht : t = ""
      · simp [generateHandler, ht, genStatus]
      · simp [generateHandler, ht, hmem, genStatus]
  · intro store req hs he hmt
    rcases hmt with h | h <;> simp [webhookHandler, hs, he, h, webhookStatus]

theorem authz_before_validation_and_empty_token_witness :
    ((generateHandler ∅ JsVal.missing JsVal.missing ⟨true, "", none, none⟩).resp
        = GenResp.forbidden ∧
      genStatus (generateHandler ∅ JsVal.missing JsVal.missing
        ⟨true, "", none, none⟩).resp = 403) ∧
    (webhookHandler ∅ ⟨true, "checkout.session.completed", none⟩
        = (∅, WebhookResp.received) ∧
      webhookStatus (webhookHandler ∅ ⟨true, "checkout.session.completed", none⟩).2 = 200) :=
  ⟨authz_before_validation_and_empty_token.1 ∅ JsVal.missing JsVal.missing
      ⟨true, "", none, none⟩ (Or.inl rfl) (Or.inl rfl),
   authz_before_validation_and_empty_token.2 ∅ ⟨true, "checkout.session.completed", none⟩
      rfl rfl (Or.inl rfl)⟩

/-! ## Claim about the token generator -/

/-- Claim C6: every token produced by `makeToken` is a string of exactly 32
characters, each from the alphanumeric alphabet a-z, A-Z, 0-9. -/
theorem makeToken_alphanumeric_32 (rnd : Nat → Fin 62) :
    (makeToken rnd).length = 32 ∧
    ∀ c ∈ (makeToken rnd).data,
      ('a' ≤ c ∧ c ≤ 'z') ∨ ('A' ≤ c ∧ c ≤ 'Z') ∨ ('0' ≤ c ∧ c ≤ '9') := by
  have hall : ∀ c ∈ tokenAlphabet,
      ('a' ≤ c ∧ c ≤ 'z') ∨ ('A' ≤ c ∧ c ≤ 'Z') ∨ ('0' ≤ c ∧ c ≤ '9') := by decide
  constructor
  · simp [makeToken, cryptoRandomString, String.length]
  · intro c hc
    simp only [makeToken, cryptoRandomString] at hc
    obtain ⟨i, _, hfc⟩ := List.mem_map.1 hc
    exact hfc ▸ hall _ (List.get_mem _ _ _)

theorem makeToken_alphanumeric_32_witness :
    (makeToken (fun _ => (⟨0, by decide⟩ : Fin 62))).length = 32 ∧
    (('a' ≤ 'a' ∧ 'a' ≤ 'z') ∨ ('A' ≤ 'a' ∧ 'a' ≤ 'Z') ∨ ('0' ≤ 'a' ∧ 'a' ≤ '9')) :=
  ⟨(makeToken_alphanumeric_32 (fun _ => (⟨0, by decide⟩ : Fin 62))).1,
   (makeToken_alphanumeric_32 (fun _ => (⟨0, by decide⟩ : Fin 62))).2 'a' (by decide)⟩

end LogoFive
